import Mathlib

/-!
# Verification of the PngMe LSB steganography codec

Shallow embedding of `src/pngme.py`.  Characters are modelled as their
code points (`Nat`), bit strings (Python strings over the characters
`'0'`/`'1'`) as `List Bool` with `true` standing for `'1'`, an image as a
width, a height and a row-major list of RGBA pixels.  Python exceptions
(IndexError on a negative index into a too-short string, out-of-bounds
pixel access, ZeroDivisionError) are modelled by `Option`: `none` means
the Python code raises.
-/

namespace PngMe

/-- One RGBA pixel; each channel is an 8-bit unsigned integer in the real
program, modelled as `Nat` (the encoder only moves blue by ±1 towards the
needed parity, which never leaves `0..255`). -/
structure Pixel where
  r : Nat
  g : Nat
  b : Nat
  a : Nat
deriving DecidableEq, Repr

/-- An image: `width`, `height` and the pixel grid stored row-major, so the
pixel at `(x, y)` sits at list index `y * width + x`. -/
structure Img where
  width : Nat
  height : Nat
  pixels : List Pixel
deriving DecidableEq, Repr

/-- Well-formedness of an image: the flat pixel list has exactly
`width * height` entries. -/
def Img.wf (im : Img) : Prop := im.pixels.length = im.width * im.height

instance (im : Img) : Decidable im.wf := by
  unfold Img.wf; infer_instance

/-- `im.getpixel((x,y))`: `none` models Pillow's error on an out-of-range
coordinate. -/
def getpixel (im : Img) (x y : Nat) : Option Pixel :=
  if x < im.width ∧ y < im.height then im.pixels[y * im.width + x]? else none

/-- `im.putpixel((x,y), p)`: `none` models Pillow's error on an
out-of-range coordinate. -/
def putpixel (im : Img) (x y : Nat) (p : Pixel) : Option Img :=
  if x < im.width ∧ y < im.height then
    some { im with pixels := im.pixels.set (y * im.width + x) p }
  else none

/-! ## Bit codec (`bin_length`, `bin_repr_deci`, `cat_elements`,
`to_bin_repr`, `bin_to_chr`) -/

/-- `bin_length(message)`: total bit length of the message, 8 bits per
character plus 8 bits for the coda (source lines 27–30).  A message is a
list of character code points. -/
def bin_length (message : List Nat) : Nat := 8 * (message.length + 1)

/-- `is_image_bigger_than_message(img, message)` (source lines 32–33). -/
def is_image_bigger_than_message (im : Img) (message : List Nat) : Bool :=
  decide (bin_length message ≤ im.width * im.height)

/-- Fuelled little-endian binary digits of `n`; fuel `n` always suffices,
kept structural so the kernel can evaluate it. -/
def natBitsLEFuel : Nat → Nat → List Bool
  | 0, _ => []
  | fuel + 1, n => if n = 0 then [] else decide (n % 2 = 1) :: natBitsLEFuel fuel (n / 2)

/-- Little-endian binary digits of `n` (empty for `n = 0`). -/
def natBitsLE (n : Nat) : List Bool := natBitsLEFuel n n

/-- Python's `format(n, 'b')`: most-significant-bit-first binary digits
with no leading zeros, except that `0` renders as the single digit `0`. -/
def natBinDigits (n : Nat) : List Bool :=
  if n = 0 then [false] else (natBitsLE n).reverse

/-- `bin_repr_deci(int_deci, number_of_figures)` (source lines 39–46):
binary representation left-padded with zeros to `number_of_figures`
digits (longer representations are NOT truncated, exactly as in the
source). -/
def bin_repr_deci (int_deci : Nat) (number_of_figures : Nat) : List Bool :=
  let x := natBinDigits int_deci
  List.replicate (number_of_figures - x.length) false ++ x

/-- `cat_elements(iter)` (source lines 48–53): left fold concatenating the
elements. -/
def cat_elements (l : List (List Bool)) : List Bool :=
  l.foldl (fun acc i => acc ++ i) []

/-- `to_bin_repr(message)` (source lines 55–60): the 8-bit representation
of every character, concatenated in order. -/
def to_bin_repr (message : List Nat) : List Bool :=
  cat_elements (message.map (fun c => bin_repr_deci c 8))

/-- `int('0b' + s, 2)` inside `bin_to_chr` (source lines 130–132): value
of a most-significant-bit-first binary string. -/
def binToNat (l : List Bool) : Nat :=
  l.foldl (fun n b => 2 * n + b.toNat) 0

/-- Little-endian companion of `binToNat`, used only in proofs. -/
def binToNatLE (l : List Bool) : Nat :=
  l.foldr (fun b acc => b.toNat + 2 * acc) 0

/-- `print_message` (source lines 134–138) converts each 8-bit group back
to a character; we model the decoded message as the list of code points. -/
def decoded_message (groups : List (List Bool)) : List Nat :=
  groups.map binToNat

/-! ## Pixel encoder (`encode_message_in_image`, source lines 62–98) -/

/-- Lines 71–73 of `encode_message_in_image`: ensure the coda is added.
The Python test is `bin_message[-8] != 8*'0'`, which compares the ONE
character at index `len - 8` with the EIGHT-character string
`'00000000'`; we model that one-character string as a singleton list.
If the stream is shorter than 8 bits, `bin_message[-8]` raises
IndexError, modelled as `none`. -/
def terminated_stream (bin_message : List Bool) : Option (List Bool) :=
  if bin_message.length < 8 then none
  else if ([bin_message.getD (bin_message.length - 8) false] : List Bool)
       ≠ List.replicate 8 false then
    some (bin_message ++ List.replicate 8 false)
  else some bin_message

/-- The write loop of `encode_message_in_image` (source lines 75–98),
with explicit fuel (the Python `while` runs one iteration per stream
position; `none` on fuel exhaustion models non-termination, which fuel
`length + 1` rules out).  The loop state is the cursor `(x, y)`; one
iteration reads the pixel, reads stream bit `y*w + x`, rewrites the blue
channel towards the bit's parity, and advances the cursor. -/
def encLoop (s : List Bool) (w : Nat) : Nat → Img → Nat → Nat → Option Img
  | 0, _, _, _ => none
  | fuel + 1, im, x, y =>
    if (x, y) = (s.length % w, s.length / w) then some im
    else
      match getpixel im x y, s[y * w + x]? with
      | some p, some bit =>
        let step := fun (im2 : Img) =>
          if (x + 1) % w = 0 then encLoop s w fuel im2 0 (y + 1)
          else encLoop s w fuel im2 (x + 1) y
        if bit = false ∧ p.b % 2 = 1 then
          match putpixel im x y ⟨p.r, p.g, p.b - 1, p.a⟩ with
          | some im2 => step im2
          | none => none
        else if bit = true ∧ p.b % 2 = 0 then
          match putpixel im x y ⟨p.r, p.g, p.b + 1, p.a⟩ with
          | some im2 => step im2
          | none => none
        else step im
      | _, _ => none

/-- `encode_message_in_image(bin_message, im)` (source lines 62–98):
append the coda (lines 71–73), then run the write loop from `(0, 0)`.
Returns the mutated image; `none` models a raised exception. -/
def encode_message_in_image (bin_message : List Bool) (im : Img) : Option Img :=
  match terminated_stream bin_message with
  | none => none
  | some s => encLoop s im.width (s.length + 1) im 0 0

/-- The blue value the encoder leaves at a pixel whose original blue is
`b0` when writing bit `bit` (the two `putpixel` branches of lines
91–94, or no write). Used only to state the loop's effect. -/
def newBlue (b0 : Nat) (bit : Bool) : Nat :=
  if bit = false ∧ b0 % 2 = 1 then b0 - 1
  else if bit = true ∧ b0 % 2 = 0 then b0 + 1
  else b0

/-! ## Pixel decoder (`all_blue`, `blue_to_bin`, source lines 105–128) -/

/-- `all_blue(im)` (source lines 105–113): the blue channel of every
pixel, scanned row-major (`y` outer, `x` inner).  In-range reads never
fail, so the `Option` from `getpixel` is defaulted. -/
def all_blue (im : Img) : List Nat :=
  ((List.range im.height).map (fun y =>
    (List.range im.width).map (fun x => ((getpixel im x y).getD ⟨0, 0, 0, 0⟩).b))).flatten

/-- The loop of `blue_to_bin` (source lines 118–128): `acc` is `bin_vals`,
`cur` the byte being accumulated.  When a completed group is all zeros it
is appended and immediately popped and the scan returns, which nets to
returning `acc` unchanged. -/
def blue_to_bin_aux : List Nat → List (List Bool) → List Bool → List (List Bool)
  | [], acc, _ => acc
  | b :: rest, acc, cur =>
    let cur' := cur ++ [decide (b % 2 = 1)]
    if cur'.length = 8 then
      if cur' = List.replicate 8 false then acc
      else blue_to_bin_aux rest (acc ++ [cur']) []
    else blue_to_bin_aux rest acc cur'

/-- `blue_to_bin(all_blues)` (source lines 115–128). -/
def blue_to_bin (all_blues : List Nat) : List (List Bool) :=
  blue_to_bin_aux all_blues [] []

/-- Parity bit of a blue value, as `blue_to_bin` reads it
(`str(b % 2)`, with `'1' ↦ true`). -/
def blueBit (b : Nat) : Bool := decide (b % 2 = 1)

/-- `blue_to_bin_aux` on the underlying bit list; the same loop with the
parities precomputed, used to state alignment lemmas. -/
def groupBitsAux : List Bool → List (List Bool) → List Bool → List (List Bool)
  | [], acc, _ => acc
  | bit :: rest, acc, cur =>
    let cur' := cur ++ [bit]
    if cur'.length = 8 then
      if cur' = List.replicate 8 false then acc
      else groupBitsAux rest (acc ++ [cur']) []
    else groupBitsAux rest acc cur'

/-- Fuelled split of a bit list into its complete 8-bit groups, dropping
a trailing incomplete group. -/
def chunks8Fuel : Nat → List Bool → List (List Bool)
  | 0, _ => []
  | fuel + 1, l => if l.length < 8 then [] else l.take 8 :: chunks8Fuel fuel (l.drop 8)

/-- The complete 8-bit groups of a bit list, in order (trailing
incomplete group dropped). -/
def chunks8 (l : List Bool) : List (List Bool) := chunks8Fuel l.length l

/-! ## A state-passing decoder run, for the determinism claim -/

/-- `all_blue` with the image threaded through every `getpixel` call as
explicit state, so that "the decoder writes no state" is a statement and
not a modelling assumption: each read returns the (unchanged) image. -/
def allBlueRun (im : Img) : List Nat × Img :=
  (List.range im.height).foldl (fun st y =>
    (List.range im.width).foldl (fun st2 x =>
      match getpixel st2.2 x y with
      | some p => (st2.1 ++ [p.b], st2.2)
      | none => (st2.1, st2.2)) st) ([], im)

/-- A `w × h` image with every pixel equal to `p` (concrete test
grids). -/
def mkImg (w h : Nat) (p : Pixel) : Img := ⟨w, h, List.replicate (w * h) p⟩

/-- A small 2×2 image with four distinct pixels (concrete test grid). -/
def sampleImg : Img :=
  ⟨2, 2, [⟨1, 2, 3, 4⟩, ⟨5, 6, 7, 8⟩, ⟨9, 10, 11, 12⟩, ⟨13, 14, 15, 16⟩]⟩

/-! ## Bit codec lemmas -/

lemma binToNat_append_bit (l : List Bool) (b : Bool) :
    binToNat (l ++ [b]) = 2 * binToNat l + b.toNat := by
  simp [binToNat, List.foldl_append]

lemma binToNat_reverse_eq_LE (l : List Bool) :
    binToNat l.reverse = binToNatLE l := by
  induction l with
  | nil => rfl
  | cons b t ih =>
    simp only [List.reverse_cons, binToNat_append_bit, ih, binToNatLE, List.foldr_cons]
    omega

lemma natBitsLEFuel_correct : ∀ fuel n, n ≤ fuel →
    binToNatLE (natBitsLEFuel fuel n) = n := by
  intro fuel
  induction fuel with
  | zero => intro n hn; interval_cases n; rfl
  | succ fuel ih =>
    intro n hn
    by_cases h0 : n = 0
    · subst h0; simp [natBitsLEFuel, binToNatLE]
    · have hdiv : n / 2 ≤ fuel := by
        have := Nat.div_lt_self (Nat.pos_of_ne_zero h0) (Nat.lt_succ_self 1)
        omega
      have hbit : (decide (n % 2 = 1)).toNat = n % 2 := by
        rcases Nat.mod_two_eq_zero_or_one n with h | h <;> simp [h]
      simp only [natBitsLEFuel, if_neg h0, binToNatLE, List.foldr_cons]
      have := ih (n / 2) hdiv
      simp only [binToNatLE] at this
      rw [this, hbit]
      omega

lemma binToNat_natBinDigits (n : Nat) : binToNat (natBinDigits n) = n := by
  by_cases h0 : n = 0
  · subst h0; rfl
  · simp only [natBinDigits, if_neg h0, binToNat_reverse_eq_LE]
    exact natBitsLEFuel_correct n n le_rfl

lemma binToNat_replicate_false_append (k : Nat) (l : List Bool) :
    binToNat (List.replicate k false ++ l) = binToNat l := by
  have hz : ∀ m, List.foldl (fun n b => 2 * n + Bool.toNat b) 0
      (List.replicate m false) = 0 := by
    intro m
    induction m with
    | zero => rfl
    | succ m ih => simpa [List.replicate_succ] using ih
  simp [binToNat, List.foldl_append, hz]

lemma binToNat_bin_repr_deci (n w : Nat) : binToNat (bin_repr_deci n w) = n := by
  simp [bin_repr_deci, binToNat_replicate_false_append, binToNat_natBinDigits]

lemma natBitsLEFuel_length : ∀ fuel n k, n ≤ fuel → n < 2 ^ k →
    (natBitsLEFuel fuel n).length ≤ k := by
  intro fuel
  induction fuel with
  | zero => intro n k hn _; interval_cases n; simp [natBitsLEFuel]
  | succ fuel ih =>
    intro n k hn hlt
    by_cases h0 : n = 0
    · subst h0; simp [natBitsLEFuel]
    · have hk : k ≠ 0 := by
        rintro rfl
        simp only [pow_zero, Nat.lt_one_iff] at hlt
        exact h0 hlt
      have hdiv : n / 2 ≤ fuel := by
        have := Nat.div_lt_self (Nat.pos_of_ne_zero h0) (Nat.lt_succ_self 1)
        omega
      have hlt2 : n / 2 < 2 ^ (k - 1) := by
        rw [Nat.div_lt_iff_lt_mul (by omega : 0 < 2)]
        calc n < 2 ^ k := hlt
        _ = 2 ^ (k - 1) * 2 := by
          rw [← pow_succ]
          congr 1
          omega
      have := ih (n / 2) (k - 1) hdiv hlt2
      simp only [natBitsLEFuel, if_neg h0, List.length_cons]
      omega

lemma natBinDigits_length_le (n : Nat) (h : n < 256) :
    (natBinDigits n).length ≤ 8 := by
  by_cases h0 : n = 0
  · subst h0; simp [natBinDigits]
  · simp only [natBinDigits, if_neg h0, List.length_reverse]
    exact natBitsLEFuel_length n n 8 le_rfl (by omega)

lemma bin_repr_deci_length (n : Nat) (h : n < 256) :
    (bin_repr_deci n 8).length = 8 := by
  have := natBinDigits_length_le n h
  simp only [bin_repr_deci, List.length_append, List.length_replicate]
  omega

lemma bin_repr_deci_ne_zeros (n : Nat) (h0 : 0 < n) :
    bin_repr_deci n 8 ≠ List.replicate 8 false := by
  intro heq
  have h1 : binToNat (bin_repr_deci n 8) = n := binToNat_bin_repr_deci n 8
  rw [heq] at h1
  have h2 : binToNat (List.replicate 8 false) = 0 := by decide
  omega

lemma cat_elements_eq_flatten (l : List (List Bool)) :
    cat_elements l = l.flatten := by
  have haux : ∀ (l : List (List Bool)) acc,
      l.foldl (fun acc i => acc ++ i) acc = acc ++ l.flatten := by
    intro l
    induction l with
    | nil => intro acc; simp
    | cons x xs ih => intro acc; simp [ih]
  simpa using haux l []

lemma to_bin_repr_length (msg : List Nat) (h : ∀ c ∈ msg, c < 256) :
    (to_bin_repr msg).length = 8 * msg.length := by
  simp only [to_bin_repr, cat_elements_eq_flatten]
  induction msg with
  | nil => rfl
  | cons c msg ih =>
    simp only [List.map_cons, List.flatten_cons, List.length_append, List.length_cons]
    rw [bin_repr_deci_length c (h c (List.mem_cons_self c msg)),
      ih (fun x hx => h x (List.mem_cons_of_mem c hx))]
    ring

/-! ## Pixel decoder lemmas -/

/-- `blue_to_bin` is the bit-level grouping loop applied to the parity
bits of the blue values. -/
lemma blue_to_bin_aux_eq_groupBits : ∀ (l : List Nat) (acc : List (List Bool)) (cur : List Bool),
    blue_to_bin_aux l acc cur = groupBitsAux (l.map blueBit) acc cur := by
  intro l
  induction l with
  | nil => intro acc cur; rfl
  | cons b rest ih =>
    intro acc cur
    simp only [blue_to_bin_aux, groupBitsAux, List.map_cons, blueBit]
    split
    · split
      · rfl
      · exact ih _ _
    · exact ih _ _

lemma blue_to_bin_eq_groupBits (l : List Nat) :
    blue_to_bin l = groupBitsAux (l.map blueBit) [] [] :=
  blue_to_bin_aux_eq_groupBits l [] []

/-- One step of the grouping loop, as an equation. -/
lemma groupBitsAux_cons (bit : Bool) (rest : List Bool) (acc : List (List Bool))
    (cur : List Bool) :
    groupBitsAux (bit :: rest) acc cur =
      if (cur ++ [bit]).length = 8 then
        if cur ++ [bit] = List.replicate 8 false then acc
        else groupBitsAux rest (acc ++ [cur ++ [bit]]) []
      else groupBitsAux rest acc (cur ++ [bit]) := rfl

/-- The accumulator is only ever appended to. -/
lemma groupBitsAux_acc : ∀ (l : List Bool) (acc : List (List Bool)) (cur : List Bool),
    groupBitsAux l acc cur = acc ++ groupBitsAux l [] cur := by
  intro l
  induction l with
  | nil => intro acc cur; simp [groupBitsAux]
  | cons bit rest ih =>
    intro acc cur
    rw [groupBitsAux_cons, groupBitsAux_cons]
    by_cases h8 : (cur ++ [bit]).length = 8
    · rw [if_pos h8, if_pos h8]
      by_cases hz : cur ++ [bit] = List.replicate 8 false
      · rw [if_pos hz, if_pos hz]
        simp
      · rw [if_neg hz, if_neg hz, ih (acc ++ [cur ++ [bit]]), ih ([] ++ [cur ++ [bit]])]
        simp
    · rw [if_neg h8, if_neg h8]
      exact ih acc (cur ++ [bit])

/-- Consuming one full group: with `cur` already holding `8 - |g|` bits,
reading the `|g|` bits of `g` completes the group `cur ++ g`; an all-zero
group stops the scan and is dropped, any other group is kept. -/
lemma groupBitsAux_group : ∀ (g cur rest : List Bool) (acc : List (List Bool)),
    cur.length + g.length = 8 → g ≠ [] →
    groupBitsAux (g ++ rest) acc cur =
      if cur ++ g = List.replicate 8 false then acc
      else groupBitsAux rest (acc ++ [cur ++ g]) [] := by
  intro g
  induction g with
  | nil => intro cur rest acc _ hne; exact absurd rfl hne
  | cons bit g' ih =>
    intro cur rest acc hlen _
    rw [List.cons_append, groupBitsAux_cons]
    by_cases hg' : g' = []
    · subst hg'
      have hcur : (cur ++ [bit]).length = 8 := by
        simp only [List.length_cons, List.length_nil] at hlen
        simp only [List.length_append, List.length_cons, List.length_nil]
        omega
      rw [if_pos hcur]
      simp
    · have hcur : (cur ++ [bit]).length ≠ 8 := by
        have hg'0 : g'.length ≠ 0 := by simpa [List.length_eq_zero] using hg'
        simp only [List.length_cons] at hlen
        simp only [List.length_append, List.length_cons, List.length_nil]
        omega
      have hlen' : (cur ++ [bit]).length + g'.length = 8 := by
        simp only [List.length_cons] at hlen
        simp only [List.length_append, List.length_cons, List.length_nil]
        omega
      rw [if_neg hcur, ih (cur ++ [bit]) rest acc hlen' hg']
      simp only [List.append_assoc, List.singleton_append]

/-- Reading a run of full non-zero groups keeps all of them in order. -/
lemma groupBitsAux_join : ∀ (gs : List (List Bool)) (rest : List Bool) (acc : List (List Bool)),
    (∀ g ∈ gs, g.length = 8 ∧ g ≠ List.replicate 8 false) →
    groupBitsAux (gs.flatten ++ rest) acc [] = groupBitsAux rest (acc ++ gs) [] := by
  intro gs
  induction gs with
  | nil => intro rest acc _; simp
  | cons g gs' ih =>
    intro rest acc hgs
    obtain ⟨hg8, hgz⟩ := hgs g (List.mem_cons_self g gs')
    have hne : g ≠ [] := by
      intro h
      rw [h] at hg8
      simp at hg8
    rw [List.flatten_cons, List.append_assoc,
      groupBitsAux_group g [] (gs'.flatten ++ rest) acc (by simpa using hg8) hne]
    simp only [List.nil_append, if_neg hgz]
    rw [ih rest (acc ++ [g]) (fun x hx => hgs x (List.mem_cons_of_mem g hx))]
    simp

/-- The terminator group stops the scan and is excluded from the output. -/
lemma groupBitsAux_terminator (rest : List Bool) (acc : List (List Bool)) :
    groupBitsAux (List.replicate 8 false ++ rest) acc [] = acc := by
  rw [groupBitsAux_group (List.replicate 8 false) [] rest acc (by simp) (by simp)]
  simp

/-- Fewer than 8 remaining bits never complete a group. -/
lemma groupBitsAux_short : ∀ (l : List Bool) (acc : List (List Bool)) (cur : List Bool),
    l.length + cur.length < 8 → groupBitsAux l acc cur = acc := by
  intro l
  induction l with
  | nil => intro acc cur _; rfl
  | cons bit rest ih =>
    intro acc cur h
    have hcur : (cur ++ [bit]).length ≠ 8 := by
      simp only [List.length_append, List.length_singleton]
      simp only [List.length_cons] at h
      omega
    simp only [groupBitsAux, if_neg hcur]
    apply ih
    simp only [List.length_append, List.length_singleton]
    simp only [List.length_cons] at h
    omega

/-- No all-zero group ever appears in the scan's output. -/
lemma groupBitsAux_no_zeros : ∀ (l : List Bool) (acc : List (List Bool)) (cur : List Bool),
    (∀ g ∈ acc, g ≠ List.replicate 8 false) →
    ∀ g ∈ groupBitsAux l acc cur, g ≠ List.replicate 8 false := by
  intro l
  induction l with
  | nil => intro acc cur hacc; exact hacc
  | cons bit rest ih =>
    intro acc cur hacc
    simp only [groupBitsAux]
    split
    · split
      · exact hacc
      · rename_i hz
        apply ih
        intro g hg
        rcases List.mem_append.mp hg with h | h
        · exact hacc g h
        · simp only [List.mem_singleton] at h
          subst h
          exact hz
    · exact ih _ _ hacc

lemma chunks8Fuel_congr : ∀ (f1 : Nat) (l : List Bool) (f2 : Nat),
    l.length ≤ f1 → l.length ≤ f2 → chunks8Fuel f1 l = chunks8Fuel f2 l := by
  intro f1
  induction f1 with
  | zero =>
    intro l f2 h1 _
    have hl : l.length < 8 := by omega
    cases f2 with
    | zero => rfl
    | succ f2' => simp [chunks8Fuel, if_pos hl]
  | succ f1' ih =>
    intro l f2 h1 h2
    by_cases hl : l.length < 8
    · cases f2 with
      | zero => simp [chunks8Fuel, if_pos hl]
      | succ f2' => simp [chunks8Fuel, if_pos hl]
    · cases f2 with
      | zero => omega
      | succ f2' =>
        simp only [chunks8Fuel, if_neg hl]
        rw [ih (l.drop 8) f2' (by simp; omega) (by simp; omega)]

lemma chunks8_short (l : List Bool) (h : l.length < 8) : chunks8 l = [] := by
  unfold chunks8
  cases hl : l.length with
  | zero => rfl
  | succ m =>
    rw [hl] at h
    simp [chunks8Fuel, hl, h]

lemma chunks8_step (l : List Bool) (h : 8 ≤ l.length) :
    chunks8 l = l.take 8 :: chunks8 (l.drop 8) := by
  unfold chunks8
  cases hl : l.length with
  | zero => omega
  | succ m =>
    have hnl : ¬ l.length < 8 := by omega
    simp only [chunks8Fuel, if_neg hnl]
    congr 1
    exact chunks8Fuel_congr m (l.drop 8) (l.drop 8).length (by simp; omega) le_rfl

/-- When no complete group is all-zero, the scan exhausts the list and
returns exactly the complete 8-bit groups, the trailing incomplete group
dropped. -/
lemma groupBits_eq_chunks8 : ∀ (fuel : Nat) (l : List Bool), l.length ≤ fuel →
    (∀ g ∈ chunks8 l, g ≠ List.replicate 8 false) →
    groupBitsAux l [] [] = chunks8 l := by
  intro fuel
  induction fuel with
  | zero =>
    intro l h1 _
    have : l = [] := List.length_eq_zero.mp (by omega)
    subst this
    rfl
  | succ fuel' ih =>
    intro l h1 hz
    by_cases hl : l.length < 8
    · rw [chunks8_short l hl, groupBitsAux_short l [] [] (by simpa using hl)]
    · push_neg at hl
      have hstep := chunks8_step l hl
      have htake : (l.take 8).length = 8 := by simp; omega
      have htz : l.take 8 ≠ List.replicate 8 false := by
        apply hz
        rw [hstep]
        exact List.mem_cons_self _ _
      have hrec : groupBitsAux (l.drop 8) [] [] = chunks8 (l.drop 8) := by
        apply ih (l.drop 8) (by simp; omega)
        intro g hg
        apply hz
        rw [hstep]
        exact List.mem_cons_of_mem _ hg
      conv_lhs => rw [← List.take_append_drop 8 l]
      rw [groupBitsAux_group (l.take 8) [] (l.drop 8) [] (by simpa using htake)
        (by intro h; rw [h] at htake; simp at htake)]
      simp only [List.nil_append, if_neg htz]
      rw [groupBitsAux_acc, hrec, hstep]
      simp

/-! ## Pixel encoder lemmas -/

/-- Advancing the cursor past the end of a row wraps to the next row:
the cursor tracking of lines 95–98 agrees with `((k+1) % w, (k+1) / w)`. -/
lemma cursor_next_row {w k : Nat} (hw : 0 < w) (h : (k % w + 1) % w = 0) :
    (k + 1) % w = 0 ∧ (k + 1) / w = k / w + 1 := by
  have hlt : k % w < w := Nat.mod_lt _ hw
  have hw1 : k % w + 1 = w := by
    rcases Nat.lt_or_ge (k % w + 1) w with hl | hg
    · rw [Nat.mod_eq_of_lt hl] at h
      omega
    · omega
  have h4 := Nat.div_add_mod k w
  have h3 : k + 1 = w * (k / w) + w := by omega
  have h5 : k + 1 = w * (k / w + 1) := by rw [Nat.mul_succ]; exact h3
  constructor
  · rw [h5]
    exact Nat.mul_mod_right w _
  · rw [h5]
    exact Nat.mul_div_cancel_left _ hw

/-- Advancing the cursor inside a row keeps the row. -/
lemma cursor_same_row {w k : Nat} (hw : 0 < w) (h : (k % w + 1) % w ≠ 0) :
    (k + 1) % w = k % w + 1 ∧ (k + 1) / w = k / w := by
  have hlt : k % w < w := Nat.mod_lt _ hw
  have hne : k % w + 1 ≠ w := by
    intro he
    apply h
    rw [he]
    exact Nat.mod_self w
  have hlt2 : k % w + 1 < w := by omega
  have h4 := Nat.div_add_mod k w
  have h3 : k + 1 = w * (k / w) + (k % w + 1) := by omega
  constructor
  · rw [h3, Nat.mul_add_mod]
    exact Nat.mod_eq_of_lt hlt2
  · rw [h3, Nat.mul_add_div hw, Nat.div_eq_of_lt hlt2]
    omega

/-- The loop condition of line 79 read back as a statement about the
linear index: the cursor `(k % w, k / w)` equals `(L % w, L / w)` exactly
when `k = L`. -/
lemma cursor_eq_iff {w k L : Nat} (_hw : 0 < w) :
    ((k % w, k / w) : Nat × Nat) = (L % w, L / w) ↔ k = L := by
  constructor
  · intro he
    have hx : k % w = L % w := congrArg Prod.fst he
    have hy : k / w = L / w := congrArg Prod.snd he
    have e1 := Nat.div_add_mod k w
    have e2 := Nat.div_add_mod L w
    have : w * (k / w) = w * (L / w) := by rw [hy]
    omega
  · intro he
    rw [he]

/-- One step of the write loop, as an equation (the `let` of the model
zeta-expanded). -/
lemma encLoop_succ (s : List Bool) (w fuel : Nat) (im : Img) (x y : Nat) :
    encLoop s w (fuel + 1) im x y =
      if (x, y) = (s.length % w, s.length / w) then some im
      else match getpixel im x y, s[y * w + x]? with
        | some p, some bit =>
          if bit = false ∧ p.b % 2 = 1 then
            match putpixel im x y ⟨p.r, p.g, p.b - 1, p.a⟩ with
            | some im2 =>
              if (x + 1) % w = 0 then encLoop s w fuel im2 0 (y + 1)
              else encLoop s w fuel im2 (x + 1) y
            | none => none
          else if bit = true ∧ p.b % 2 = 0 then
            match putpixel im x y ⟨p.r, p.g, p.b + 1, p.a⟩ with
            | some im2 =>
              if (x + 1) % w = 0 then encLoop s w fuel im2 0 (y + 1)
              else encLoop s w fuel im2 (x + 1) y
            | none => none
          else
            if (x + 1) % w = 0 then encLoop s w fuel im 0 (y + 1)
            else encLoop s w fuel im (x + 1) y
        | _, _ => none := rfl

/-- Full characterization of the write loop started at linear index `k`
(cursor `(k % w, k / w)`): with enough pixels and enough fuel it
succeeds, only pixels `k ≤ i < L` change, and each such pixel keeps its
red/green/alpha and gets blue `newBlue` of stream bit `i`. -/
lemma encLoop_ok (s : List Bool) : ∀ (fuel : Nat) (im : Img) (k : Nat),
    0 < im.width →
    im.pixels.length = im.width * im.height →
    k ≤ s.length → s.length ≤ im.width * im.height →
    s.length - k < fuel →
    ∃ im', encLoop s im.width fuel im (k % im.width) (k / im.width) = some im' ∧
      im'.width = im.width ∧ im'.height = im.height ∧
      im'.pixels.length = im.pixels.length ∧
      (∀ i, i < k ∨ s.length ≤ i → im'.pixels[i]? = im.pixels[i]?) ∧
      (∀ i bit p, k ≤ i → s[i]? = some bit → im.pixels[i]? = some p →
        im'.pixels[i]? = some ⟨p.r, p.g, newBlue p.b bit, p.a⟩) := by
  intro fuel
  induction fuel with
  | zero =>
    intro im k _ _ _ _ hfuel
    omega
  | succ fuel ih =>
    intro im k hw hwf hk hcap hfuel
    by_cases hkL : k = s.length
    · refine ⟨im, ?_, rfl, rfl, rfl, fun i _ => rfl, ?_⟩
      · rw [encLoop_succ, if_pos ((cursor_eq_iff hw).mpr hkL)]
      · intro i bit p hki hsi _
        obtain ⟨hi, -⟩ := List.getElem?_eq_some.mp hsi
        omega
    · have hkltL : k < s.length := by omega
      have hcond : ((k % im.width, k / im.width) : Nat × Nat)
          ≠ (s.length % im.width, s.length / im.width) := by
        intro he
        exact hkL ((cursor_eq_iff hw).mp he)
      have hxw : k % im.width < im.width := Nat.mod_lt _ hw
      have hyh : k / im.width < im.height := by
        rw [Nat.div_lt_iff_lt_mul hw]
        have hcomm : im.width * im.height = im.height * im.width := Nat.mul_comm _ _
        omega
      have hidx : k / im.width * im.width + k % im.width = k := by
        rw [Nat.mul_comm]
        exact Nat.div_add_mod k im.width
      have hkpix : k < im.pixels.length := by
        rw [hwf]
        omega
      have hp : im.pixels[k]? = some (im.pixels.get ⟨k, hkpix⟩) := List.getElem?_eq_getElem hkpix
      set p := im.pixels.get ⟨k, hkpix⟩ with hpdef
      have hget : getpixel im (k % im.width) (k / im.width) = some p := by
        unfold getpixel
        rw [if_pos ⟨hxw, hyh⟩, hidx]
        exact hp
      have hks : k < s.length := hkltL
      have hsk : s[k]? = some (s.get ⟨k, hks⟩) := List.getElem?_eq_getElem hks
      set bit := s.get ⟨k, hks⟩ with hbitdef
      -- the common continuation: any image holding the written pixel at k
      -- and agreeing with im elsewhere finishes the job
      have hstep : ∀ im2 : Img, im2.width = im.width → im2.height = im.height →
          im2.pixels.length = im.pixels.length →
          (∀ i, i ≠ k → im2.pixels[i]? = im.pixels[i]?) →
          im2.pixels[k]? = some ⟨p.r, p.g, newBlue p.b bit, p.a⟩ →
          ∃ im', (if (k % im.width + 1) % im.width = 0 then
                    encLoop s im.width fuel im2 0 (k / im.width + 1)
                  else encLoop s im.width fuel im2 (k % im.width + 1) (k / im.width))
                 = some im' ∧
            im'.width = im.width ∧ im'.height = im.height ∧
            im'.pixels.length = im.pixels.length ∧
            (∀ i, i < k ∨ s.length ≤ i → im'.pixels[i]? = im.pixels[i]?) ∧
            (∀ i bit' p', k ≤ i → s[i]? = some bit' → im.pixels[i]? = some p' →
              im'.pixels[i]? = some ⟨p'.r, p'.g, newBlue p'.b bit', p'.a⟩) := by
        intro im2 h2w h2h h2len h2ne h2k
        have hloop : (if (k % im.width + 1) % im.width = 0 then
                encLoop s im.width fuel im2 0 (k / im.width + 1)
              else encLoop s im.width fuel im2 (k % im.width + 1) (k / im.width))
            = encLoop s im.width fuel im2 ((k + 1) % im.width) ((k + 1) / im.width) := by
          by_cases hnext : (k % im.width + 1) % im.width = 0
          · obtain ⟨hm, hd⟩ := cursor_next_row hw hnext
            rw [if_pos hnext, hm, hd]
          · obtain ⟨hm, hd⟩ := cursor_same_row hw hnext
            rw [if_neg hnext, hm, hd]
        have h2wf : im2.pixels.length = im2.width * im2.height := by
          rw [h2len, h2w, h2h]
          exact hwf
        have h2w' : 0 < im2.width := by rw [h2w]; exact hw
        have h2cap : s.length ≤ im2.width * im2.height := by
          rw [h2w, h2h]
          exact hcap
        obtain ⟨im', hrun, hw', hh', hlen', hframe', hwrite'⟩ :=
          ih im2 (k + 1) h2w' h2wf (by omega) h2cap (by omega)
        rw [h2w] at hrun
        refine ⟨im', by rw [hloop]; exact hrun, by rw [hw', h2w],
          by rw [hh', h2h], by rw [hlen', h2len], ?_, ?_⟩
        · intro i hi
          have hik : i ≠ k := by omega
          rw [hframe' i (by omega), h2ne i hik]
        · intro i bit' p' hki hsi hpi
          rcases Nat.eq_or_lt_of_le hki with heq | hlt
          · subst heq
            have hb' : bit' = bit := by
              rw [hsk] at hsi
              exact (Option.some.injEq _ _).mp hsi.symm
            have hp' : p' = p := by
              rw [hp] at hpi
              exact (Option.some.injEq _ _).mp hpi.symm
            rw [hframe' k (by omega), h2k, hb', hp']
          · exact hwrite' i bit' p' hlt hsi (by rw [h2ne i (by omega)]; exact hpi)
      -- now dispatch the three branches of the write
      rw [encLoop_succ, if_neg hcond, hidx, hget, hsk]
      by_cases hb1 : bit = false ∧ p.b % 2 = 1
      · have hput : putpixel im (k % im.width) (k / im.width) ⟨p.r, p.g, p.b - 1, p.a⟩
            = some { im with pixels := im.pixels.set k ⟨p.r, p.g, p.b - 1, p.a⟩ } := by
          unfold putpixel
          rw [if_pos ⟨hxw, hyh⟩, hidx]
        simp only [if_pos hb1, hput]
        have hnb : newBlue p.b bit = p.b - 1 := by
          unfold newBlue
          rw [if_pos hb1]
        refine hstep { im with pixels := im.pixels.set k ⟨p.r, p.g, p.b - 1, p.a⟩ }
          rfl rfl (by simp) ?_ ?_
        · intro i hik
          simp only
          exact List.getElem?_set_ne (fun h => hik h.symm)
        · simp only
          rw [List.getElem?_set_self hkpix, hnb]
      · by_cases hb2 : bit = true ∧ p.b % 2 = 0
        · have hput : putpixel im (k % im.width) (k / im.width) ⟨p.r, p.g, p.b + 1, p.a⟩
              = some { im with pixels := im.pixels.set k ⟨p.r, p.g, p.b + 1, p.a⟩ } := by
            unfold putpixel
            rw [if_pos ⟨hxw, hyh⟩, hidx]
          simp only [if_neg hb1, if_pos hb2, hput]
          have hnb : newBlue p.b bit = p.b + 1 := by
            unfold newBlue
            rw [if_neg hb1, if_pos hb2]
          refine hstep { im with pixels := im.pixels.set k ⟨p.r, p.g, p.b + 1, p.a⟩ }
            rfl rfl (by simp) ?_ ?_
          · intro i hik
            simp only
            exact List.getElem?_set_ne (fun h => hik h.symm)
          · simp only
            rw [List.getElem?_set_self hkpix, hnb]
        · simp only [if_neg hb1, if_neg hb2]
          have hnb : newBlue p.b bit = p.b := by
            unfold newBlue
            rw [if_neg hb1, if_neg hb2]
          refine hstep im rfl rfl rfl (fun i _ => rfl) ?_
          rw [hnb]
          exact hp

/-- The coda test of line 71 compares a one-character string against an
eight-character string, so it never succeeds: when the stream has at
least 8 bits the terminator is appended unconditionally. -/
lemma terminated_stream_eq (bits : List Bool) (h : 8 ≤ bits.length) :
    terminated_stream bits = some (bits ++ List.replicate 8 false) := by
  unfold terminated_stream
  rw [if_neg (by omega)]
  rw [if_pos ?_]
  intro he
  have := congrArg List.length he
  simp at this

/-- A stream shorter than 8 bits makes `bin_message[-8]` raise
IndexError. -/
lemma terminated_stream_none (bits : List Bool) (h : bits.length < 8) :
    terminated_stream bits = none := by
  unfold terminated_stream
  rw [if_pos h]

/-- Inversion: a successful coda step means the input had at least 8 bits
and exactly one all-zero byte was appended. -/
lemma terminated_stream_some {bits s : List Bool}
    (h : terminated_stream bits = some s) :
    8 ≤ bits.length ∧ s = bits ++ List.replicate 8 false := by
  by_cases hl : bits.length < 8
  · rw [terminated_stream_none bits hl] at h
    cases h
  · push_neg at hl
    rw [terminated_stream_eq bits hl] at h
    exact ⟨hl, ((Option.some.injEq _ _).mp h).symm⟩

/-- `encode_message_in_image` succeeds on a well-formed image with
capacity for the terminated stream, and its full pixel-level effect. -/
lemma encode_ok (bin_message : List Bool) (im : Img) (s : List Bool)
    (hwf : im.wf) (hs : terminated_stream bin_message = some s)
    (hcap : s.length ≤ im.width * im.height) :
    ∃ im', encode_message_in_image bin_message im = some im' ∧
      im'.width = im.width ∧ im'.height = im.height ∧
      im'.pixels.length = im.pixels.length ∧
      (∀ i : Nat, s.length ≤ i → im'.pixels[i]? = im.pixels[i]?) ∧
      (∀ (i : Nat) (bit : Bool) (p : Pixel), s[i]? = some bit → im.pixels[i]? = some p →
        im'.pixels[i]? = some ⟨p.r, p.g, newBlue p.b bit, p.a⟩) := by
  obtain ⟨h8, hseq⟩ := terminated_stream_some hs
  have hslen : 16 ≤ s.length := by
    rw [hseq]
    simp only [List.length_append, List.length_replicate]
    omega
  have hw : 0 < im.width := by
    by_contra h0
    push_neg at h0
    have hw0 : im.width = 0 := by omega
    rw [hw0, Nat.zero_mul] at hcap
    omega
  obtain ⟨im', hrun, hw', hh', hlen', hframe, hwrite⟩ :=
    encLoop_ok s (s.length + 1) im 0 hw hwf (Nat.zero_le _) hcap (by omega)
  rw [Nat.zero_mod, Nat.zero_div] at hrun
  refine ⟨im', ?_, hw', hh', hlen', ?_, ?_⟩
  · unfold encode_message_in_image
    rw [hs]
    exact hrun
  · intro i hi
    exact hframe i (Or.inr hi)
  · intro i bit p hsi hpi
    exact hwrite i bit p (Nat.zero_le i) hsi hpi

/-! ## Reading the grid back -/

/-- An in-range read on a well-formed image always yields the pixel at
the row-major index. -/
lemma getpixel_some (im : Img) (hwf : im.wf) (x y : Nat)
    (hx : x < im.width) (hy : y < im.height) :
    getpixel im x y = im.pixels[y * im.width + x]? ∧
    y * im.width + x < im.pixels.length := by
  constructor
  · unfold getpixel
    rw [if_pos ⟨hx, hy⟩]
  · rw [hwf]
    calc y * im.width + x < y * im.width + im.width := by omega
    _ = (y + 1) * im.width := by ring
    _ ≤ im.height * im.width := Nat.mul_le_mul_right _ (by omega)
    _ = im.width * im.height := Nat.mul_comm _ _

/-- A row-major double scan of a flat list of length `w * h` visits every
element once, in order. -/
lemma grid_flatten {α β : Type} (d : α) (f : α → β) :
    ∀ (h w : Nat) (l : List α), l.length = w * h →
    ((List.range h).map (fun y =>
      (List.range w).map (fun x => f ((l[y * w + x]?).getD d)))).flatten = l.map f := by
  intro h
  induction h with
  | zero =>
    intro w l hl
    have : l = [] := List.length_eq_zero.mp (by omega)
    subst this
    simp
  | succ h ih =>
    intro w l hl
    rw [Nat.mul_succ] at hl
    have hw_le : w ≤ l.length := by omega
    have hrow0 : (List.range w).map (fun x => f ((l[0 * w + x]?).getD d))
        = (l.take w).map f := by
      apply List.ext_getElem
      · simp
        omega
      · intro i h1 h2
        simp only [List.getElem_map, List.getElem_range, List.getElem_take]
        have hi : i < w := by simpa using h1
        have hil : i < l.length := by omega
        rw [Nat.zero_mul, Nat.zero_add, List.getElem?_eq_getElem hil]
        rfl
    have hrows : (List.range h).map ((fun y =>
          (List.range w).map (fun x => f ((l[y * w + x]?).getD d))) ∘ Nat.succ)
        = (List.range h).map (fun y =>
          (List.range w).map (fun x => f (((l.drop w)[y * w + x]?).getD d))) := by
      apply List.map_congr_left
      intro y _
      simp only [Function.comp_apply]
      apply List.map_congr_left
      intro x _
      have hidx : y.succ * w + x = w + (y * w + x) := by rw [Nat.succ_mul]; ring
      rw [List.getElem?_drop, hidx]
    rw [List.range_succ_eq_map, List.map_cons, List.map_map, List.flatten_cons,
      hrow0, hrows, ih w (l.drop w) (by simp; omega)]
    rw [← List.map_append, List.take_append_drop]

/-- On a well-formed image, `all_blue` returns exactly the blue channels
of the flat pixel list, in row-major order. -/
lemma all_blue_eq_map (im : Img) (hwf : im.wf) :
    all_blue im = im.pixels.map Pixel.b := by
  unfold all_blue
  have hrw : (List.range im.height).map (fun y =>
        (List.range im.width).map (fun x => ((getpixel im x y).getD ⟨0, 0, 0, 0⟩).b))
      = (List.range im.height).map (fun y =>
        (List.range im.width).map (fun x =>
          Pixel.b ((im.pixels[y * im.width + x]?).getD ⟨0, 0, 0, 0⟩))) := by
    apply List.map_congr_left
    intro y hy
    apply List.map_congr_left
    intro x hx
    rw [(getpixel_some im hwf x y (List.mem_range.mp hx) (List.mem_range.mp hy)).1]
  rw [hrw]
  exact grid_flatten ⟨0, 0, 0, 0⟩ Pixel.b im.height im.width im.pixels hwf

/-! ## The state-passing decoder run -/

/-- The inner fold of `allBlueRun` never changes the image component. -/
lemma allBlueRun_inner_snd (y : Nat) :
    ∀ (xs : List Nat) (st : List Nat × Img),
    ((xs.foldl (fun st2 x =>
      match getpixel st2.2 x y with
      | some p => (st2.1 ++ [p.b], st2.2)
      | none => (st2.1, st2.2)) st)).2 = st.2 := by
  intro xs
  induction xs with
  | nil => intro st; rfl
  | cons x xs ih =>
    intro st
    rw [List.foldl_cons]
    rcases getpixel st.2 x y with - | p <;> rw [ih]

/-- The outer fold of `allBlueRun` never changes the image component. -/
lemma allBlueRun_outer_snd (w : Nat) :
    ∀ (ys : List Nat) (st : List Nat × Img),
    ((ys.foldl (fun st y =>
      (List.range w).foldl (fun st2 x =>
        match getpixel st2.2 x y with
        | some p => (st2.1 ++ [p.b], st2.2)
        | none => (st2.1, st2.2)) st) st)).2 = st.2 := by
  intro ys
  induction ys with
  | nil => intro st; rfl
  | cons y ys ih =>
    intro st
    rw [List.foldl_cons, ih]
    exact allBlueRun_inner_snd y (List.range w) st

/-- `allBlueRun` returns the image unchanged: the decoder writes no
state. -/
lemma allBlueRun_snd (im : Img) : (allBlueRun im).2 = im := by
  unfold allBlueRun
  exact allBlueRun_outer_snd im.width (List.range im.height) ([], im)

/-- The inner fold of `allBlueRun` on a well-formed image appends
exactly the blue values of row `y`, leaving the image untouched. -/
lemma allBlueRun_inner_fst (im : Img) (hwf : im.wf) (y : Nat) (hy : y < im.height) :
    ∀ (xs : List Nat), (∀ x ∈ xs, x < im.width) → ∀ (acc : List Nat),
    (xs.foldl (fun st2 x =>
      match getpixel st2.2 x y with
      | some p => (st2.1 ++ [p.b], st2.2)
      | none => (st2.1, st2.2)) (acc, im))
    = (acc ++ xs.map (fun x => ((getpixel im x y).getD ⟨0, 0, 0, 0⟩).b), im) := by
  intro xs
  induction xs with
  | nil => intro _ acc; simp
  | cons x xs ih =>
    intro hbound acc
    have hx : x < im.width := hbound x (List.mem_cons_self x xs)
    obtain ⟨hg, hlt⟩ := getpixel_some im hwf x y hx hy
    obtain ⟨p, hp⟩ : ∃ p, getpixel im x y = some p := by
      rw [hg]
      exact ⟨_, List.getElem?_eq_getElem hlt⟩
    rw [List.foldl_cons]
    simp only [hp]
    rw [ih (fun x' hx' => hbound x' (List.mem_cons_of_mem x hx')) (acc ++ [p.b])]
    simp [hp]

/-- The outer fold of `allBlueRun` accumulates exactly the rows that
`all_blue` reads, in the same order. -/
lemma allBlueRun_outer_fst (im : Img) (hwf : im.wf) :
    ∀ (ys : List Nat), (∀ y ∈ ys, y < im.height) → ∀ (acc : List Nat),
    (ys.foldl (fun st y =>
      (List.range im.width).foldl (fun st2 x =>
        match getpixel st2.2 x y with
        | some p => (st2.1 ++ [p.b], st2.2)
        | none => (st2.1, st2.2)) st) (acc, im))
    = (acc ++ (ys.map (fun y =>
        (List.range im.width).map (fun x =>
          ((getpixel im x y).getD ⟨0, 0, 0, 0⟩).b))).flatten, im) := by
  intro ys
  induction ys with
  | nil => intro _ acc; simp
  | cons y ys ih =>
    intro hbound acc
    have hy : y < im.height := hbound y (List.mem_cons_self y ys)
    rw [List.foldl_cons,
      allBlueRun_inner_fst im hwf y hy (List.range im.width)
        (fun x hx => List.mem_range.mp hx) acc,
      ih (fun y' hy' => hbound y' (List.mem_cons_of_mem y hy'))]
    simp

/-- On a well-formed image, the state-passing run returns exactly the
blue values `all_blue` returns. -/
lemma allBlueRun_fst (im : Img) (hwf : im.wf) :
    (allBlueRun im).1 = all_blue im := by
  unfold allBlueRun all_blue
  rw [allBlueRun_outer_fst im hwf (List.range im.height)
    (fun y hy => List.mem_range.mp hy) []]
  simp

/-! ## Bridging lemmas for the round trip -/

/-- Decoding inverts encoding at the level of a single pixel: the parity
bit read back from the written blue value is the bit that was written. -/
lemma blueBit_newBlue (b0 : Nat) (bit : Bool) : blueBit (newBlue b0 bit) = bit := by
  unfold blueBit newBlue
  split_ifs with h1 h2
  · obtain ⟨hb, hodd⟩ := h1
    subst hb
    have he : (b0 - 1) % 2 = 0 := by omega
    rw [he]
    rfl
  · obtain ⟨hb, heven⟩ := h2
    subst hb
    have he : (b0 + 1) % 2 = 1 := by omega
    rw [he]
    rfl
  · cases bit with
    | false =>
      have h0 : b0 % 2 = 0 := by
        rcases Nat.mod_two_eq_zero_or_one b0 with h | h
        · exact h
        · exact absurd ⟨rfl, h⟩ h1
      rw [h0]
      rfl
    | true =>
      have h0 : b0 % 2 = 1 := by
        rcases Nat.mod_two_eq_zero_or_one b0 with h | h
        · exact absurd ⟨rfl, h⟩ h2
        · exact h
      rw [h0]
      rfl

/-- A list that agrees with `s` on all of `s`'s positions starts with
`s`. -/
lemma prefix_of_agree (l s : List Bool) (_hle : s.length ≤ l.length)
    (hagree : ∀ (i : Nat) (b : Bool), s[i]? = some b → l[i]? = some b) :
    l = s ++ l.drop s.length := by
  conv_lhs => rw [← List.take_append_drop s.length l]
  congr 1
  apply List.ext_getElem?
  intro i
  rw [List.getElem?_take]
  by_cases hi : i < s.length
  · rw [if_pos hi]
    rw [hagree i (s.get ⟨i, hi⟩) (List.getElem?_eq_getElem hi), List.getElem?_eq_getElem hi]
    rfl
  · rw [if_neg hi]
    symm
    apply List.getElem?_eq_none
    omega

lemma to_bin_repr_eq_flatten (message : List Nat) :
    to_bin_repr message = (message.map (fun c => bin_repr_deci c 8)).flatten :=
  cat_elements_eq_flatten _

/-! ## Claim theorems -/

/-- C3: `is_image_bigger_than_message(image, message)` returns true if
and only if `width * height >= 8 * (len(message) + 1)`; in particular it
is true at exact equality and false one pixel below. -/
theorem C3_capacity_boundary (im : Img) (message : List Nat) :
    is_image_bigger_than_message im message = true ↔
      8 * (message.length + 1) ≤ im.width * im.height := by
  simp [is_image_bigger_than_message, bin_length]

/-- C2 counterexample: a 16-bit stream that already ends in an all-zero
byte still gets an eight-zero byte appended (the source's line-71 check
compares one character against the eight-character string `'00000000'`
and never succeeds), refuting "nothing is appended in that case". -/
theorem C2_counterexample :
    terminated_stream (List.replicate 16 false) = some (List.replicate 24 false) ∧
    List.replicate 24 false ≠ List.replicate 16 false := by
  constructor
  · decide
  · decide

/-- C2 (amended): for every bitstream of at least 8 bits the encoder
appends exactly one eight-zero-bit terminator byte unconditionally,
whether or not the stream already ends in an all-zero byte; streams of
fewer than 8 bits raise IndexError instead. -/
theorem C2_amended_always_appends (bin_message : List Bool)
    (h : 8 ≤ bin_message.length) :
    terminated_stream bin_message = some (bin_message ++ List.replicate 8 false) :=
  terminated_stream_eq bin_message h

/-- C2 witness: the amended claim at a concrete 8-bit stream of ones. -/
theorem C2_witness :
    terminated_stream (List.replicate 8 true)
      = some (List.replicate 8 true ++ List.replicate 8 false) :=
  C2_amended_always_appends (List.replicate 8 true) (by decide)

/-- C5: `blue_to_bin` scans the blue values in order, groups the parity
bits into 8-bit groups, stops at the first all-zero group and excludes
it: (1) no all-zero group ever appears in the output; (2) when the
parity stream is a run of complete non-zero groups followed by an
all-zero byte, the output is exactly that run, whatever follows. -/
theorem C5_terminator_detection :
    (∀ (all_blues : List Nat) (g : List Bool), g ∈ blue_to_bin all_blues →
      g ≠ List.replicate 8 false) ∧
    (∀ (all_blues : List Nat) (gs : List (List Bool)) (rest : List Bool),
      (∀ g ∈ gs, g.length = 8 ∧ g ≠ List.replicate 8 false) →
      all_blues.map blueBit = gs.flatten ++ List.replicate 8 false ++ rest →
      blue_to_bin all_blues = gs) := by
  constructor
  · intro all_blues g hg
    rw [blue_to_bin_eq_groupBits] at hg
    exact groupBitsAux_no_zeros _ [] [] (by simp) g hg
  · intro all_blues gs rest hgs hmap
    rw [blue_to_bin_eq_groupBits, hmap, List.append_assoc,
      groupBitsAux_join gs _ [] hgs, groupBitsAux_terminator]
    simp

/-- C5 witness: one non-zero byte, the terminator, then junk decodes to
exactly that byte. -/
theorem C5_witness :
    blue_to_bin [1, 0, 1, 1, 0, 1, 0, 1, 0, 0, 0, 0, 0, 0, 0, 0, 9]
      = [[true, false, true, true, false, true, false, true]] :=
  C5_terminator_detection.2 [1, 0, 1, 1, 0, 1, 0, 1, 0, 0, 0, 0, 0, 0, 0, 0, 9]
    [[true, false, true, true, false, true, false, true]] [true]
    (by decide) (by decide)

/-- C6: when no complete 8-bit parity group is all-zero, `blue_to_bin`
scans the whole list without error and returns exactly the complete
8-bit groups, dropping a trailing incomplete group. -/
theorem C6_missing_terminator_returns_groups (all_blues : List Nat)
    (h : ∀ g ∈ chunks8 (all_blues.map blueBit), g ≠ List.replicate 8 false) :
    blue_to_bin all_blues = chunks8 (all_blues.map blueBit) := by
  rw [blue_to_bin_eq_groupBits]
  exact groupBits_eq_chunks8 (all_blues.map blueBit).length _ le_rfl h

/-- C6 witness: 11 blue values with no all-zero group decode to the one
complete group, the trailing 3 bits dropped. -/
theorem C6_witness :
    blue_to_bin [1, 0, 0, 0, 0, 0, 0, 0, 1, 1, 1]
      = chunks8 ([1, 0, 0, 0, 0, 0, 0, 0, 1, 1, 1].map blueBit) :=
  C6_missing_terminator_returns_groups [1, 0, 0, 0, 0, 0, 0, 0, 1, 1, 1] (by decide)

/-- C8: decoding is deterministic and stateless: the state-passing run
of `all_blue` returns the image unchanged, a second run on the returned
image decodes to the same output, and on a well-formed image the run
computes exactly `all_blue` (all reads depend only on the argument). -/
theorem C8_decode_deterministic (im : Img) :
    (allBlueRun im).2 = im ∧
    blue_to_bin ((allBlueRun ((allBlueRun im).2)).1) = blue_to_bin ((allBlueRun im).1) ∧
    (im.wf → (allBlueRun im).1 = all_blue im) := by
  refine ⟨allBlueRun_snd im, ?_, fun hwf => allBlueRun_fst im hwf⟩
  rw [allBlueRun_snd im]

/-- C8 witness: the deterministic double decode on a concrete 2×2
image. -/
theorem C8_witness :
    (allBlueRun sampleImg).2 = sampleImg ∧
    blue_to_bin ((allBlueRun ((allBlueRun sampleImg).2)).1)
      = blue_to_bin ((allBlueRun sampleImg).1) ∧
    (allBlueRun sampleImg).1 = all_blue sampleImg :=
  ⟨(C8_decode_deterministic sampleImg).1, (C8_decode_deterministic sampleImg).2.1,
    (C8_decode_deterministic sampleImg).2.2 (by decide)⟩

/-- C9: a bitstream of fewer than 8 bits (in particular the empty
message's empty stream) makes `encode_message_in_image` fail with the
IndexError of `bin_message[-8]` (modelled `none`), although the capacity
check accepts the empty message on any image of at least 8 pixels. -/
theorem C9_short_stream_errors :
    (∀ (bin_message : List Bool) (im : Img), bin_message.length < 8 →
      encode_message_in_image bin_message im = none) ∧
    to_bin_repr [] = [] ∧
    (∀ im : Img, 8 ≤ im.width * im.height →
      is_image_bigger_than_message im [] = true) := by
  refine ⟨?_, rfl, ?_⟩
  · intro bin_message im h
    unfold encode_message_in_image
    rw [terminated_stream_none bin_message h]
  · intro im h
    simp only [is_image_bigger_than_message, bin_length, List.length_nil,
      Nat.zero_add, Nat.mul_one, decide_eq_true_eq]
    exact h

/-- C9 witness: encoding the empty message into an accepted 8-pixel
image fails. -/
theorem C9_witness :
    encode_message_in_image (to_bin_repr []) (mkImg 4 2 ⟨0, 0, 0, 0⟩) = none ∧
    is_image_bigger_than_message (mkImg 4 2 ⟨0, 0, 0, 0⟩) [] = true :=
  ⟨C9_short_stream_errors.1 (to_bin_repr []) (mkImg 4 2 ⟨0, 0, 0, 0⟩) (by decide),
    C9_short_stream_errors.2.2 (mkImg 4 2 ⟨0, 0, 0, 0⟩) (by decide)⟩

/-- C10: for every non-empty single-byte message the line-71 check never
matches, so the terminator is appended unconditionally and the final
stream has length exactly `8 * (len(message) + 1)`; consequently, when
`is_image_bigger_than_message` accepts the image, the whole encode loop
runs with every `getpixel`/`putpixel` access in bounds (no `none`). -/
theorem C10_stream_length_and_in_bounds (message : List Nat) (im : Img)
    (hne : message ≠ []) (hbytes : ∀ c ∈ message, c < 256)
    (hwf : im.wf) (hfit : is_image_bigger_than_message im message = true) :
    ∃ s, terminated_stream (to_bin_repr message) = some s ∧
      s = to_bin_repr message ++ List.replicate 8 false ∧
      s.length = 8 * (message.length + 1) ∧
      ∃ im', encode_message_in_image (to_bin_repr message) im = some im' := by
  have hlen : (to_bin_repr message).length = 8 * message.length :=
    to_bin_repr_length message hbytes
  have hne' : message.length ≠ 0 := fun h => hne (List.length_eq_zero.mp h)
  have h8 : 8 ≤ (to_bin_repr message).length := by omega
  have hs := terminated_stream_eq (to_bin_repr message) h8
  have hslen : (to_bin_repr message ++ List.replicate 8 false).length
      = 8 * (message.length + 1) := by
    simp only [List.length_append, List.length_replicate]
    omega
  have hfit' : 8 * (message.length + 1) ≤ im.width * im.height := by
    simpa [is_image_bigger_than_message, bin_length] using hfit
  obtain ⟨im', henc, -, -, -, -, -⟩ :=
    encode_ok (to_bin_repr message) im _ hwf hs (by omega)
  exact ⟨_, hs, rfl, hslen, im', henc⟩

/-- C10 witness: message `"B"` on an 8×2 grid. -/
theorem C10_witness :
    ∃ s, terminated_stream (to_bin_repr [66]) = some s ∧
      s = to_bin_repr [66] ++ List.replicate 8 false ∧
      s.length = 8 * (([66] : List Nat).length + 1) ∧
      ∃ im', encode_message_in_image (to_bin_repr [66]) (mkImg 8 2 ⟨0, 0, 0, 0⟩)
        = some im' :=
  C10_stream_length_and_in_bounds [66] (mkImg 8 2 ⟨0, 0, 0, 0⟩)
    (by decide) (by decide) (by decide) (by decide)

/-- C4: after a successful encode into a grid with capacity for the
terminated stream, every pixel keeps its red, green and alpha channels,
every pixel's blue channel moves by at most 1, and every pixel at or
beyond the final stream length is completely untouched. -/
theorem C4_minimal_perturbation (bin_message s : List Bool) (im : Img)
    (hwf : im.wf) (hs : terminated_stream bin_message = some s)
    (hcap : s.length ≤ im.width * im.height) :
    ∃ im', encode_message_in_image bin_message im = some im' ∧
      im'.width = im.width ∧ im'.height = im.height ∧
      (∀ (i : Nat) (p : Pixel), im.pixels[i]? = some p →
        ∃ p', im'.pixels[i]? = some p' ∧
          p'.r = p.r ∧ p'.g = p.g ∧ p'.a = p.a ∧
          (p'.b = p.b ∨ p'.b = p.b + 1 ∨ p'.b + 1 = p.b)) ∧
      (∀ i : Nat, s.length ≤ i → im'.pixels[i]? = im.pixels[i]?) := by
  obtain ⟨im', henc, hw', hh', hlen', hframe, hwrite⟩ :=
    encode_ok bin_message im s hwf hs hcap
  refine ⟨im', henc, hw', hh', ?_, hframe⟩
  intro i p hp
  by_cases hi : i < s.length
  · obtain ⟨bit, hbit⟩ : ∃ bit, s[i]? = some bit := ⟨s.get ⟨i, hi⟩, List.getElem?_eq_getElem hi⟩
    refine ⟨⟨p.r, p.g, newBlue p.b bit, p.a⟩, hwrite i bit p hbit hp, rfl, rfl, rfl, ?_⟩
    unfold newBlue
    split_ifs with h1 h2
    · obtain ⟨hb, hodd⟩ := h1
      right; right
      show p.b - 1 + 1 = p.b
      omega
    · right; left
      rfl
    · left
      rfl
  · push_neg at hi
    exact ⟨p, by rw [hframe i hi]; exact hp, rfl, rfl, rfl, Or.inl rfl⟩

/-- C4 witness: encoding `"A"` into a full-capacity 8×2 grid of pixels
`(10, 20, 7, 30)`. -/
theorem C4_witness :
    ∃ im', encode_message_in_image (to_bin_repr [65]) (mkImg 8 2 ⟨10, 20, 7, 30⟩)
        = some im' ∧
      im'.width = (mkImg 8 2 ⟨10, 20, 7, 30⟩).width ∧
      im'.height = (mkImg 8 2 ⟨10, 20, 7, 30⟩).height ∧
      (∀ (i : Nat) (p : Pixel), (mkImg 8 2 ⟨10, 20, 7, 30⟩).pixels[i]? = some p →
        ∃ p', im'.pixels[i]? = some p' ∧
          p'.r = p.r ∧ p'.g = p.g ∧ p'.a = p.a ∧
          (p'.b = p.b ∨ p'.b = p.b + 1 ∨ p'.b + 1 = p.b)) ∧
      (∀ i : Nat, (to_bin_repr [65] ++ List.replicate 8 false).length ≤ i →
        im'.pixels[i]? = (mkImg 8 2 ⟨10, 20, 7, 30⟩).pixels[i]?) :=
  C4_minimal_perturbation (to_bin_repr [65]) (to_bin_repr [65] ++ List.replicate 8 false)
    (mkImg 8 2 ⟨10, 20, 7, 30⟩) (by decide) (by decide) (by decide)

/-- C7: bit `i` of the final stream is written to pixel
`(i mod width, i div width)`, the row-major order in which `all_blue`
reads pixels back; concretely, encoding `"A"` (bitstring `01000001`)
leaves the first 8 blue LSBs reading `0,1,0,0,0,0,0,1`. -/
theorem C7_bit_mapping :
    (∀ (bin_message s : List Bool) (im : Img), im.wf →
      terminated_stream bin_message = some s →
      s.length ≤ im.width * im.height →
      ∃ im', encode_message_in_image bin_message im = some im' ∧
        ∀ (i : Nat) (bit : Bool), s[i]? = some bit →
          ∃ p, getpixel im' (i % im.width) (i / im.width) = some p ∧
            p.b % 2 = bit.toNat) ∧
    (∀ im : Img, im.wf → all_blue im = im.pixels.map Pixel.b) ∧
    (encode_message_in_image (to_bin_repr [65]) (mkImg 8 3 ⟨0, 0, 0, 0⟩)).map
        (fun im' => ((all_blue im').take 8).map (fun b => b % 2))
      = some [0, 1, 0, 0, 0, 0, 0, 1] := by
  refine ⟨?_, fun im hwf => all_blue_eq_map im hwf, by decide⟩
  intro bin_message s im hwf hs hcap
  obtain ⟨h8, hseq⟩ := terminated_stream_some hs
  have hslen : 16 ≤ s.length := by
    rw [hseq]
    simp only [List.length_append, List.length_replicate]
    omega
  have hw : 0 < im.width := by
    by_contra h0
    push_neg at h0
    have hw0 : im.width = 0 := by omega
    rw [hw0, Nat.zero_mul] at hcap
    omega
  obtain ⟨im', henc, hw', hh', hlen', hframe, hwrite⟩ :=
    encode_ok bin_message im s hwf hs hcap
  refine ⟨im', henc, ?_⟩
  intro i bit hbit
  have hi : i < s.length := (List.getElem?_eq_some.mp hbit).1
  have hip : i < im.pixels.length := by
    rw [hwf]
    omega
  obtain ⟨p, hp⟩ : ∃ p, im.pixels[i]? = some p := ⟨_, List.getElem?_eq_getElem hip⟩
  have hres := hwrite i bit p hbit hp
  refine ⟨⟨p.r, p.g, newBlue p.b bit, p.a⟩, ?_, ?_⟩
  · unfold getpixel
    have hxw : i % im.width < im.width := Nat.mod_lt _ hw
    have hyh : i / im.width < im.height := by
      rw [Nat.div_lt_iff_lt_mul hw]
      have hcomm : im.width * im.height = im.height * im.width := Nat.mul_comm _ _
      omega
    have hidx : i / im.width * im.width + i % im.width = i := by
      rw [Nat.mul_comm]
      exact Nat.div_add_mod i im.width
    rw [hw', hh', hidx]
    rw [if_pos ⟨hxw, hyh⟩]
    exact hres
  · have := blueBit_newBlue p.b bit
    unfold blueBit at this
    cases bit with
    | false =>
      simp only [decide_eq_false_iff_not] at this
      simp only [Bool.toNat_false]
      omega
    | true =>
      simp only [decide_eq_true_eq] at this
      simp only [Bool.toNat_true]
      exact this

/-- C7 witness: the mapping instantiated at `"A"` on the 8×3 grid,
hypotheses discharged by evaluation. -/
theorem C7_witness :
    ∃ im', encode_message_in_image (to_bin_repr [65]) (mkImg 8 3 ⟨0, 0, 0, 0⟩)
        = some im' ∧
      ∀ (i : Nat) (bit : Bool),
        (to_bin_repr [65] ++ List.replicate 8 false)[i]? = some bit →
        ∃ p, getpixel im' (i % (mkImg 8 3 ⟨0, 0, 0, 0⟩).width)
            (i / (mkImg 8 3 ⟨0, 0, 0, 0⟩).width) = some p ∧
          p.b % 2 = bit.toNat :=
  C7_bit_mapping.1 (to_bin_repr [65]) (to_bin_repr [65] ++ List.replicate 8 false)
    (mkImg 8 3 ⟨0, 0, 0, 0⟩) (by decide) (by decide) (by decide)

/-- C1 counterexample: the empty message is composed only of single-byte
non-NUL characters (vacuously) and an 8-pixel grid meets
`width*height ≥ 8*(len+1) = 8`, yet `encode_message_in_image` raises
(returns `none`, the IndexError of line 71), so the round trip does not
return the empty message. -/
theorem C1_counterexample :
    is_image_bigger_than_message (mkImg 8 1 ⟨0, 0, 1, 0⟩) [] = true ∧
    encode_message_in_image (to_bin_repr []) (mkImg 8 1 ⟨0, 0, 1, 0⟩) = none := by
  constructor
  · decide
  · decide

/-- C1 (amended): for every NON-EMPTY message of single-byte non-NUL
characters and every well-formed grid with
`width*height ≥ 8*(len(message)+1)`, encoding and then decoding the grid
yields exactly the original message. -/
theorem C1_roundtrip (message : List Nat) (im : Img)
    (hne : message ≠ [])
    (hchars : ∀ c ∈ message, 0 < c ∧ c < 256)
    (hwf : im.wf)
    (hcap : 8 * (message.length + 1) ≤ im.width * im.height) :
    ∃ im', encode_message_in_image (to_bin_repr message) im = some im' ∧
      decoded_message (blue_to_bin (all_blue im')) = message := by
  have hbytes : ∀ c ∈ message, c < 256 := fun c hc => (hchars c hc).2
  have hlen : (to_bin_repr message).length = 8 * message.length :=
    to_bin_repr_length message hbytes
  have hne' : message.length ≠ 0 := fun h => hne (List.length_eq_zero.mp h)
  have h8 : 8 ≤ (to_bin_repr message).length := by omega
  have hs : terminated_stream (to_bin_repr message)
      = some (to_bin_repr message ++ List.replicate 8 false) :=
    terminated_stream_eq _ h8
  have hslen : (to_bin_repr message ++ List.replicate 8 false).length
      = 8 * (message.length + 1) := by
    simp only [List.length_append, List.length_replicate]
    omega
  have hcap' : (to_bin_repr message ++ List.replicate 8 false).length
      ≤ im.width * im.height := by omega
  obtain ⟨im', henc, hw', hh', hlen', hframe, hwrite⟩ :=
    encode_ok (to_bin_repr message) im _ hwf hs hcap'
  refine ⟨im', henc, ?_⟩
  have hwf' : im'.wf := by
    unfold Img.wf
    rw [hlen', hw', hh']
    exact hwf
  rw [all_blue_eq_map im' hwf']
  have hlenbits : ((im'.pixels.map Pixel.b).map blueBit).length = im.pixels.length := by
    simp [hlen']
  have hcaplen : (to_bin_repr message ++ List.replicate 8 false).length
      ≤ ((im'.pixels.map Pixel.b).map blueBit).length := by
    rw [hlenbits, hwf]
    exact hcap'
  have hagree : ∀ (i : Nat) (bit : Bool),
      (to_bin_repr message ++ List.replicate 8 false)[i]? = some bit →
      ((im'.pixels.map Pixel.b).map blueBit)[i]? = some bit := by
    intro i bit hbit
    have hi : i < (to_bin_repr message ++ List.replicate 8 false).length :=
      (List.getElem?_eq_some.mp hbit).1
    have hip : i < im.pixels.length := by
      rw [hwf]
      omega
    obtain ⟨p, hp⟩ : ∃ p, im.pixels[i]? = some p := ⟨_, List.getElem?_eq_getElem hip⟩
    have hwr := hwrite i bit p hbit hp
    rw [List.getElem?_map, List.getElem?_map, hwr]
    simp [blueBit_newBlue]
  have hsplit := prefix_of_agree ((im'.pixels.map Pixel.b).map blueBit)
    (to_bin_repr message ++ List.replicate 8 false) hcaplen hagree
  have hgs : ∀ g ∈ message.map (fun c => bin_repr_deci c 8),
      g.length = 8 ∧ g ≠ List.replicate 8 false := by
    intro g hg
    obtain ⟨c, hc, rfl⟩ := List.mem_map.mp hg
    exact ⟨bin_repr_deci_length c (hbytes c hc),
      bin_repr_deci_ne_zeros c (hchars c hc).1⟩
  rw [blue_to_bin_eq_groupBits, hsplit, to_bin_repr_eq_flatten, List.append_assoc,
    groupBitsAux_join _ _ [] hgs, groupBitsAux_terminator]
  unfold decoded_message
  rw [List.nil_append, List.map_map]
  have : ∀ c ∈ message, (binToNat ∘ fun c => bin_repr_deci c 8) c = c := by
    intro c _
    exact binToNat_bin_repr_deci c 8
  rw [List.map_congr_left this]
  simp

/-- C1 witness: the round trip for message `"Hi"` on a 24-pixel grid at
exact capacity. -/
theorem C1_witness :
    ∃ im', encode_message_in_image (to_bin_repr [72, 105]) (mkImg 8 3 ⟨0, 0, 0, 0⟩)
        = some im' ∧
      decoded_message (blue_to_bin (all_blue im')) = [72, 105] :=
  C1_roundtrip [72, 105] (mkImg 8 3 ⟨0, 0, 0, 0⟩)
    (by decide) (by decide) (by decide) (by decide)

end PngMe
